import Mathlib

/-!
Verification development for the diffusion-weighted stereo correlation core
of thaines/hyperion-cv (eos::stereo, diffuse_correlation.h).

The header in the repository declares the classes DiffusionWeight,
RangeDiffusionSlice, DiffuseCorrelation and DiffusionCorrelationMatching and
documents their behaviour; only DiffusionWeight::Get has an inline body.  The
remaining method bodies are not part of the available sources, so they are
modelled here from the specification, with real32 arithmetic embedded as exact
rational arithmetic and the negative exponential abstracted as a parameter
negExp (a strictly positive function on non-negative inputs, as x ↦ exp (-x)
is).  Images are embedded as total functions on integer coordinates together
with a width, a height and a validity mask.
-/

/-- A colour-range image, the external collaborator type bs::LuvRangeImage:
per pixel a colour-range payload of abstract type Pix and a validity flag.
Coordinates are integers; the mask function is consulted only in bounds. -/
structure LuvRangeImage (Pix : Type) where
  width : Nat
  height : Nat
  pix : Int → Int → Pix
  mask : Int → Int → Bool

/-- A pixel is valid when it lies inside the image and its mask flag is set. -/
def LuvRangeImage.valid {Pix : Type} (img : LuvRangeImage Pix) (x y : Int) : Bool :=
  decide (0 ≤ x) && decide (x < (img.width : Int)) &&
  decide (0 ≤ y) && decide (y < (img.height : Int)) && img.mask x y

/-- Offsets of the four axis-aligned directions, with the coding of the
source header: 0 = +x, 1 = +y, 2 = -x, 3 = -y. -/
def dirOffset : Nat → Int × Int
  | 0 => (1, 0)
  | 1 => (0, 1)
  | 2 => (-1, 0)
  | _ => (0, -1)

/-- Whether the axis-aligned neighbour of (x,y) in direction d is a valid
(in-bounds, unmasked) pixel. -/
def neighbourValid {Pix : Type} (img : LuvRangeImage Pix) (x y : Int) (d : Nat) : Bool :=
  img.valid (x + (dirOffset d).1) (y + (dirOffset d).2)

/-- Modelled from the spec: the distance to the neighbour in direction d,
scaled by the distance multiplier, as used by DiffusionWeight::Create. -/
def rawDist {Pix : Type} (img : LuvRangeImage Pix) (dist : Pix → Pix → ℚ)
    (distMult : ℚ) (x y : Int) (d : Nat) : ℚ :=
  distMult * dist (img.pix x y) (img.pix (x + (dirOffset d).1) (y + (dirOffset d).2))

/-- Minimum of a list of rationals, 0 for the empty list. -/
def minOf : List ℚ → ℚ
  | [] => 0
  | h :: t => t.foldr min h

/-- The directions of (x,y) whose neighbour is a valid pixel. -/
def validDirs {Pix : Type} (img : LuvRangeImage Pix) (x y : Int) : List Nat :=
  (List.range 4).filter (fun d => neighbourValid img x y d)

/-- Modelled from the spec: the stability offset of DiffusionWeight::Create,
the minimum raw distance over the valid directions of (x,y). -/
def minRaw {Pix : Type} (img : LuvRangeImage Pix) (dist : Pix → Pix → ℚ)
    (distMult : ℚ) (x y : Int) : ℚ :=
  minOf ((validDirs img x y).map (rawDist img dist distMult x y))

/-- Modelled from the spec: the unnormalised score of direction d at (x,y) in
DiffusionWeight::Create - the negative exponential of the raw distance after
subtracting the minimum over valid directions, and 0 for invalid directions. -/
def dirScore {Pix : Type} (img : LuvRangeImage Pix) (dist : Pix → Pix → ℚ)
    (distMult : ℚ) (negExp : ℚ → ℚ) (x y : Int) (d : Nat) : ℚ :=
  if neighbourValid img x y d = true then
    negExp (rawDist img dist distMult x y d - minRaw img dist distMult x y)
  else 0

/-- Modelled from the spec: the normalisation constant at (x,y). -/
def totalScore {Pix : Type} (img : LuvRangeImage Pix) (dist : Pix → Pix → ℚ)
    (distMult : ℚ) (negExp : ℚ → ℚ) (x y : Int) : ℚ :=
  dirScore img dist distMult negExp x y 0 + dirScore img dist distMult negExp x y 1 +
  dirScore img dist distMult negExp x y 2 + dirScore img dist distMult negExp x y 3

/-- Modelled from the spec: the final weight of direction d at (x,y): the
normalised score when the pixel is valid and has at least one valid
neighbour, and 0 otherwise. -/
def weightAt {Pix : Type} (img : LuvRangeImage Pix) (dist : Pix → Pix → ℚ)
    (distMult : ℚ) (negExp : ℚ → ℚ) (x y : Int) (d : Nat) : ℚ :=
  if img.valid x y = true ∧ validDirs img x y ≠ [] then
    dirScore img dist distMult negExp x y d / totalScore img dist distMult negExp x y
  else 0

/-- The DiffusionWeight object: per pixel the list of the four direction
weights, mirroring the per-pixel array dir[4] of the source. -/
structure DiffusionWeight where
  data : Int → Int → List ℚ

/-- DiffusionWeight::Get from the header: reads entry dir of the per-pixel
4-element array; out-of-array reads are embedded as the default 0. -/
def DiffusionWeight.Get (dw : DiffusionWeight) (x y : Int) (d : Nat) : ℚ :=
  ((dw.data x y)[d]?).getD 0

/-- Modelled from the spec: DiffusionWeight::Create fills in, for every
pixel, the four normalised direction weights. -/
def DiffusionWeight.Create {Pix : Type} (img : LuvRangeImage Pix)
    (dist : Pix → Pix → ℚ) (distMult : ℚ) (negExp : ℚ → ℚ) : DiffusionWeight :=
  ⟨fun x y =>
    [weightAt img dist distMult negExp x y 0, weightAt img dist distMult negExp x y 1,
     weightAt img dist distMult negExp x y 2, weightAt img dist distMult negExp x y 3]⟩

/-- The total out-going diffusion weight of a pixel. -/
def outWeight (dw : DiffusionWeight) (a b : Int) : ℚ :=
  dw.Get a b 0 + dw.Get a b 1 + dw.Get a b 2 + dw.Get a b 3

/-- Modelled from the spec: the bounded weighted walk of RangeDiffusionSlice.
walk img dw x y k a b is the mass a k-hop walk started at the source (x,y)
deposits at the pixel (a,b).  Each hop redistributes the mass at a pixel
along the four directions according to the DiffusionWeight field; a walk
branch at a pixel with no outgoing weight terminates there, keeping its
mass; a masked or out-of-bounds source deposits nothing. -/
def walk {Pix : Type} (img : LuvRangeImage Pix) (dw : DiffusionWeight)
    (x y : Int) : Nat → Int → Int → ℚ
  | 0 => fun a b => if a = x ∧ b = y ∧ img.valid x y = true then 1 else 0
  | Nat.succ k => fun a b =>
      (if outWeight dw a b = 0 then walk img dw x y k a b else 0) +
      walk img dw x y k (a - 1) b * dw.Get (a - 1) b 0 +
      walk img dw x y k a (b - 1) * dw.Get a (b - 1) 1 +
      walk img dw x y k (a + 1) b * dw.Get (a + 1) b 2 +
      walk img dw x y k a (b + 1) * dw.Get a (b + 1) 3

/-- Modelled from the spec: the diffusion mask of source pixel x of the
slice at row y - the mass the steps-hop walk deposits at offset (u,v). -/
def maskFor {Pix : Type} (img : LuvRangeImage Pix) (dw : DiffusionWeight)
    (y steps : Nat) (x : Nat) : Int → Int → ℚ :=
  fun u v => walk img dw (x : Int) (y : Int) steps ((x : Int) + u) ((y : Int) + v)

/-- Resize a buffer to length n, keeping existing entries and padding new
cells with a default; models capacity reuse of the slice storage. -/
def resizeTo {α : Type} (dflt : α) : Nat → List α → List α
  | 0, _ => []
  | Nat.succ n, [] => dflt :: resizeTo dflt n []
  | Nat.succ n, h :: t => h :: resizeTo dflt n t

/-- The RangeDiffusionSlice object: the step budget, the bound row, the
slice width and the per-source-pixel diffusion masks held in a linear
buffer that Create overwrites in place. -/
structure RangeDiffusionSlice where
  steps : Nat
  y : Nat
  width : Nat
  data : List (Int → Int → ℚ)

/-- A freshly constructed slice, before any Create call. -/
def RangeDiffusionSlice.init : RangeDiffusionSlice := ⟨0, 0, 0, []⟩

/-- Modelled from the spec: RangeDiffusionSlice::Create recomputes the
slice for row y with the given step budget, reusing the previous storage
buffer (resized when the geometry changed) and overwriting every cell with
the freshly computed diffusion mask of its source pixel. -/
def RangeDiffusionSlice.Create {Pix : Type} (prev : RangeDiffusionSlice)
    (y steps : Nat) (img : LuvRangeImage Pix) (dw : DiffusionWeight) :
    RangeDiffusionSlice :=
  { steps := steps, y := y, width := img.width,
    data := (List.range img.width).foldl
      (fun buf x => buf.set x (maskFor img dw y steps x))
      (resizeTo (fun _ _ => 0) img.width prev.data) }

/-- RangeDiffusionSlice::Get from the header contract: the weight of window
coordinate (u,v) for source pixel x; 0 out of range, where out of range
means abs u + abs v > steps or x not inside the slice. -/
def RangeDiffusionSlice.Get (s : RangeDiffusionSlice) (x : Nat) (u v : Int) : ℚ :=
  if x < s.width ∧ u.natAbs + v.natAbs ≤ s.steps then
    ((s.data)[x]?.getD (fun _ _ => 0)) u v
  else 0

/-- The finite set of window offsets (u,v) with abs u + abs v bounded by the
step budget, over which a diffusion mask is indexed. -/
def offsetBall (steps : Nat) : Finset (Int × Int) :=
  (Finset.Icc (-(steps : Int)) (steps : Int) ×ˢ
   Finset.Icc (-(steps : Int)) (steps : Int)).filter
    (fun p => p.1.natAbs + p.2.natAbs ≤ steps)

/-- The DiffuseCorrelation object: the bound distance function, distance cap,
images and slices, as set by Setup. -/
structure DiffuseCorrelation (Pix : Type) where
  dist : Pix → Pix → ℚ
  distCap : ℚ
  img1 : LuvRangeImage Pix
  dif1 : RangeDiffusionSlice
  img2 : LuvRangeImage Pix
  dif2 : RangeDiffusionSlice

/-- DiffuseCorrelation::Setup fills in the bound references. -/
def DiffuseCorrelation.Setup {Pix : Type} (dist : Pix → Pix → ℚ) (distCap : ℚ)
    (img1 : LuvRangeImage Pix) (dif1 : RangeDiffusionSlice)
    (img2 : LuvRangeImage Pix) (dif2 : RangeDiffusionSlice) : DiffuseCorrelation Pix :=
  ⟨dist, distCap, img1, dif1, img2, dif2⟩

/-- Width of image 1. -/
def DiffuseCorrelation.Width1 {Pix : Type} (c : DiffuseCorrelation Pix) : Nat :=
  c.img1.width

/-- Width of image 2. -/
def DiffuseCorrelation.Width2 {Pix : Type} (c : DiffuseCorrelation Pix) : Nat :=
  c.img2.width

/-- The distance cap used. -/
def DiffuseCorrelation.DistanceCap {Pix : Type} (c : DiffuseCorrelation Pix) : ℚ :=
  c.distCap

/-- Modelled from the spec: the contribution of window offset (u,v) to
Cost(x1,x2): when both slices give the offset non-zero weight, the sum of
the two weights times the colour-range distance clamped to the cap;
otherwise 0. -/
def DiffuseCorrelation.pairTerm {Pix : Type} (c : DiffuseCorrelation Pix)
    (x1 x2 : Nat) (u v : Int) : ℚ :=
  if c.dif1.Get x1 u v ≠ 0 ∧ c.dif2.Get x2 u v ≠ 0 then
    (c.dif1.Get x1 u v + c.dif2.Get x2 u v) *
      min (c.dist (c.img1.pix ((x1 : Int) + u) ((c.dif1.y : Int) + v))
             (c.img2.pix ((x2 : Int) + u) ((c.dif2.y : Int) + v))) c.distCap
  else 0

/-- Whether some window offset receives non-zero weight from both slices. -/
def DiffuseCorrelation.hasPair {Pix : Type} (c : DiffuseCorrelation Pix)
    (x1 x2 : Nat) : Prop :=
  ∃ p ∈ offsetBall c.dif1.steps, c.dif1.Get x1 p.1 p.2 ≠ 0 ∧ c.dif2.Get x2 p.1 p.2 ≠ 0

instance hasPairDecidable {Pix : Type} (c : DiffuseCorrelation Pix) (x1 x2 : Nat) :
    Decidable (c.hasPair x1 x2) :=
  inferInstanceAs (Decidable (∃ p ∈ offsetBall c.dif1.steps,
    c.dif1.Get x1 p.1 p.2 ≠ 0 ∧ c.dif2.Get x2 p.1 p.2 ≠ 0))

/-- Modelled from the spec: DiffuseCorrelation::Cost - the accumulated
weighted clamped distances over the window, divided by two; the distance
cap when either pixel is masked or out of range, or when no offset receives
weight from both slices. -/
def DiffuseCorrelation.Cost {Pix : Type} (c : DiffuseCorrelation Pix)
    (x1 x2 : Nat) : ℚ :=
  if c.img1.valid (x1 : Int) (c.dif1.y : Int) = true ∧
     c.img2.valid (x2 : Int) (c.dif2.y : Int) = true ∧ c.hasPair x1 x2 then
    (∑ p in offsetBall c.dif1.steps, c.pairTerm x1 x2 p.1 p.2) / 2
  else c.distCap

/-- A disparity candidate of the matching stage: a disparity value and its
correlation cost. -/
structure DisparityCandidate where
  disparity : Int
  cost : ℚ

/-- Modelled from the spec: the disparity values admissible for pixel x -
those in the search range that do not index outside image 2. -/
def admissibleDisps {Pix : Type} (c : DiffuseCorrelation Pix) (dmin dmax : Int)
    (x : Nat) : List Int :=
  ((List.range (dmax - dmin + 1).toNat).map (fun i => dmin + (i : Int))).filter
    (fun d => decide (0 ≤ (x : Int) + d) && decide ((x : Int) + d < (c.img2.width : Int)))

/-- Modelled from the spec: the per-pixel output of
DiffusionCorrelationMatching (an empty placeholder class in the source,
specified by the surrounding documentation): for a valid pixel the
locally-best (minimum-cost) disparity candidates over the admissible search
range with their costs; for a masked pixel the empty sequence. -/
def candidatesFor {Pix : Type} (c : DiffuseCorrelation Pix) (dmin dmax : Int)
    (x : Nat) : List DisparityCandidate :=
  if c.img1.valid (x : Int) (c.dif1.y : Int) = true then
    let cands := (admissibleDisps c dmin dmax x).map
      (fun d => DisparityCandidate.mk d (c.Cost x ((x : Int) + d).toNat))
    cands.filter (fun cd => decide (cd.cost ≤ minOf (cands.map DisparityCandidate.cost)))
  else []

/-- Modelled from the spec: a pixel is flagged reliable exactly when its
final candidate sequence has a single member. -/
def reliableFlag {Pix : Type} (c : DiffuseCorrelation Pix) (dmin dmax : Int)
    (x : Nat) : Bool :=
  (candidatesFor c dmin dmax x).length == 1

/-- A concrete 2 by 1 all-valid image over a unit colour payload, used to
instantiate the theorems at concrete inputs. -/
def imgW : LuvRangeImage Unit := ⟨2, 1, fun _ _ => (), fun _ _ => true⟩

/-- A concrete 2 by 1 image whose pixel 0 is masked. -/
def imgW2 : LuvRangeImage Unit := ⟨2, 1, fun _ _ => (), fun x _ => decide (x ≠ 0)⟩

/-- A concrete 1 by 1 fully masked image. -/
def imgM : LuvRangeImage Unit := ⟨1, 1, fun _ _ => (), fun _ _ => false⟩

/-- The zero distance function on the unit payload. -/
def distW0 : Unit → Unit → ℚ := fun _ _ => 0

/-- A concrete positive stand-in for the negative exponential. -/
def expW : ℚ → ℚ := fun _ => 1

/-- Concrete diffusion weights over imgW. -/
def dwW : DiffusionWeight := DiffusionWeight.Create imgW distW0 1 expW

/-- Concrete diffusion weights over imgW2. -/
def dwW2 : DiffusionWeight := DiffusionWeight.Create imgW2 distW0 1 expW

/-- Concrete diffusion weights over the fully masked image. -/
def dwM : DiffusionWeight := DiffusionWeight.Create imgM distW0 1 expW

/-- Concrete slice of imgW at row 0 with one step. -/
def sliceW : RangeDiffusionSlice := RangeDiffusionSlice.init.Create 0 1 imgW dwW

/-- Concrete slice of the fully masked image at row 0 with no steps. -/
def sliceM : RangeDiffusionSlice := RangeDiffusionSlice.init.Create 0 0 imgM dwM

/-- Concrete correlation over two copies of imgW, with cap 5. -/
def corrW : DiffuseCorrelation Unit := DiffuseCorrelation.Setup distW0 5 imgW sliceW imgW sliceW

/-- Concrete correlation over two copies of the fully masked image, cap 5. -/
def corrM : DiffuseCorrelation Unit := DiffuseCorrelation.Setup distW0 5 imgM sliceM imgM sliceM

lemma foldr_min_le (t : List ℚ) (c : ℚ) : ∀ a : ℚ, a = c ∨ a ∈ t → t.foldr min c ≤ a := by
  induction t generalizing c with
  | nil =>
    intro a ha
    rcases ha with ha | ha
    · exact le_of_eq (by simpa using ha.symm)
    · simp at ha
  | cons b t2 ih =>
    intro a ha
    have hfold : (b :: t2).foldr min c = min b (t2.foldr min c) := rfl
    rcases ha with ha | ha
    · rw [hfold]
      exact le_trans (min_le_right _ _) (ih c a (Or.inl ha))
    · rcases List.mem_cons.mp ha with hb | ht
      · rw [hfold, hb]
        exact min_le_left _ _
      · rw [hfold]
        exact le_trans (min_le_right _ _) (ih c a (Or.inr ht))

lemma minOf_le (l : List ℚ) (a : ℚ) (ha : a ∈ l) : minOf l ≤ a := by
  cases l with
  | nil => simp at ha
  | cons h t =>
    rcases List.mem_cons.mp ha with hh | ht
    · exact foldr_min_le t h a (Or.inl hh)
    · exact foldr_min_le t h a (Or.inr ht)

lemma mem_validDirs {Pix : Type} (img : LuvRangeImage Pix) (x y : Int) (d : Nat) :
    d ∈ validDirs img x y ↔ d < 4 ∧ neighbourValid img x y d = true := by
  simp [validDirs, List.mem_filter, List.mem_range]

lemma minRaw_le {Pix : Type} (img : LuvRangeImage Pix) (dist : Pix → Pix → ℚ)
    (distMult : ℚ) (x y : Int) (d : Nat) (hd : d < 4)
    (hv : neighbourValid img x y d = true) :
    minRaw img dist distMult x y ≤ rawDist img dist distMult x y d := by
  apply minOf_le
  exact List.mem_map_of_mem _ ((mem_validDirs img x y d).mpr ⟨hd, hv⟩)

lemma dirScore_nonneg {Pix : Type} (img : LuvRangeImage Pix) (dist : Pix → Pix → ℚ)
    (distMult : ℚ) (negExp : ℚ → ℚ) (hpos : ∀ q : ℚ, 0 ≤ q → 0 < negExp q)
    (x y : Int) (d : Nat) (hd : d < 4) :
    0 ≤ dirScore img dist distMult negExp x y d := by
  unfold dirScore
  by_cases hv : neighbourValid img x y d = true
  · rw [if_pos hv]
    exact le_of_lt (hpos _ (sub_nonneg.mpr (minRaw_le img dist distMult x y d hd hv)))
  · rw [if_neg hv]

lemma dirScore_pos {Pix : Type} (img : LuvRangeImage Pix) (dist : Pix → Pix → ℚ)
    (distMult : ℚ) (negExp : ℚ → ℚ) (hpos : ∀ q : ℚ, 0 ≤ q → 0 < negExp q)
    (x y : Int) (d : Nat) (hd : d < 4) (hv : neighbourValid img x y d = true) :
    0 < dirScore img dist distMult negExp x y d := by
  unfold dirScore
  rw [if_pos hv]
  exact hpos _ (sub_nonneg.mpr (minRaw_le img dist distMult x y d hd hv))

lemma totalScore_pos {Pix : Type} (img : LuvRangeImage Pix) (dist : Pix → Pix → ℚ)
    (distMult : ℚ) (negExp : ℚ → ℚ) (hpos : ∀ q : ℚ, 0 ≤ q → 0 < negExp q)
    (x y : Int) (hne : validDirs img x y ≠ []) :
    0 < totalScore img dist distMult negExp x y := by
  obtain ⟨d, hd⟩ := List.exists_mem_of_ne_nil _ hne
  obtain ⟨hd4, hdv⟩ := (mem_validDirs img x y d).mp hd
  have h0 := dirScore_nonneg img dist distMult negExp hpos x y 0 (by omega)
  have h1 := dirScore_nonneg img dist distMult negExp hpos x y 1 (by omega)
  have h2 := dirScore_nonneg img dist distMult negExp hpos x y 2 (by omega)
  have h3 := dirScore_nonneg img dist distMult negExp hpos x y 3 (by omega)
  have hdpos := dirScore_pos img dist distMult negExp hpos x y d hd4 hdv
  unfold totalScore
  interval_cases d <;> linarith

lemma create_get_lt4 {Pix : Type} (img : LuvRangeImage Pix) (dist : Pix → Pix → ℚ)
    (distMult : ℚ) (negExp : ℚ → ℚ) (x y : Int) (d : Nat) (hd : d < 4) :
    (DiffusionWeight.Create img dist distMult negExp).Get x y d =
      weightAt img dist distMult negExp x y d := by
  interval_cases d <;> rfl

lemma create_get_ge4 {Pix : Type} (img : LuvRangeImage Pix) (dist : Pix → Pix → ℚ)
    (distMult : ℚ) (negExp : ℚ → ℚ) (x y : Int) (d : Nat) (hd : 4 ≤ d) :
    (DiffusionWeight.Create img dist distMult negExp).Get x y d = 0 := by
  obtain ⟨e, rfl⟩ := Nat.exists_eq_add_of_le hd
  have h4 : 4 + e = e + 4 := by omega
  rw [h4]
  simp [DiffusionWeight.Get, DiffusionWeight.Create, List.getElem?_cons_succ]

lemma create_get_nonneg {Pix : Type} (img : LuvRangeImage Pix) (dist : Pix → Pix → ℚ)
    (distMult : ℚ) (negExp : ℚ → ℚ) (hpos : ∀ q : ℚ, 0 ≤ q → 0 < negExp q)
    (x y : Int) (d : Nat) :
    0 ≤ (DiffusionWeight.Create img dist distMult negExp).Get x y d := by
  by_cases hd : d < 4
  · rw [create_get_lt4 img dist distMult negExp x y d hd]
    unfold weightAt
    by_cases hc : img.valid x y = true ∧ validDirs img x y ≠ []
    · rw [if_pos hc]
      exact div_nonneg (dirScore_nonneg img dist distMult negExp hpos x y d hd)
        (le_of_lt (totalScore_pos img dist distMult negExp hpos x y hc.2))
    · rw [if_neg hc]
  · rw [create_get_ge4 img dist distMult negExp x y d (by omega)]

lemma create_get_invalid_dir {Pix : Type} (img : LuvRangeImage Pix)
    (dist : Pix → Pix → ℚ) (distMult : ℚ) (negExp : ℚ → ℚ) (x y : Int) (d : Nat)
    (hv : neighbourValid img x y d = false) :
    (DiffusionWeight.Create img dist distMult negExp).Get x y d = 0 := by
  by_cases hd : d < 4
  · rw [create_get_lt4 img dist distMult negExp x y d hd]
    unfold weightAt
    by_cases hc : img.valid x y = true ∧ validDirs img x y ≠ []
    · rw [if_pos hc]
      have hs : dirScore img dist distMult negExp x y d = 0 := by
        unfold dirScore
        rw [if_neg (by simp [hv])]
      rw [hs, zero_div]
    · rw [if_neg hc]
  · exact create_get_ge4 img dist distMult negExp x y d (by omega)

lemma create_get_sum {Pix : Type} (img : LuvRangeImage Pix) (dist : Pix → Pix → ℚ)
    (distMult : ℚ) (negExp : ℚ → ℚ) (hpos : ∀ q : ℚ, 0 ≤ q → 0 < negExp q)
    (x y : Int) (hvx : img.valid x y = true) (hne : validDirs img x y ≠ []) :
    (DiffusionWeight.Create img dist distMult negExp).Get x y 0 +
    (DiffusionWeight.Create img dist distMult negExp).Get x y 1 +
    (DiffusionWeight.Create img dist distMult negExp).Get x y 2 +
    (DiffusionWeight.Create img dist distMult negExp).Get x y 3 = 1 := by
  rw [create_get_lt4 img dist distMult negExp x y 0 (by omega),
      create_get_lt4 img dist distMult negExp x y 1 (by omega),
      create_get_lt4 img dist distMult negExp x y 2 (by omega),
      create_get_lt4 img dist distMult negExp x y 3 (by omega)]
  unfold weightAt
  rw [if_pos ⟨hvx, hne⟩, if_pos ⟨hvx, hne⟩, if_pos ⟨hvx, hne⟩, if_pos ⟨hvx, hne⟩]
  rw [div_add_div_same, div_add_div_same, div_add_div_same]
  exact div_self (ne_of_gt (totalScore_pos img dist distMult negExp hpos x y hne))

lemma create_get_zero_case {Pix : Type} (img : LuvRangeImage Pix)
    (dist : Pix → Pix → ℚ) (distMult : ℚ) (negExp : ℚ → ℚ) (x y : Int) (d : Nat)
    (hc : ¬ (img.valid x y = true ∧ validDirs img x y ≠ [])) :
    (DiffusionWeight.Create img dist distMult negExp).Get x y d = 0 := by
  by_cases hd : d < 4
  · rw [create_get_lt4 img dist distMult negExp x y d hd]
    unfold weightAt
    rw [if_neg hc]
  · exact create_get_ge4 img dist distMult negExp x y d (by omega)

lemma resizeTo_length {α : Type} (dflt : α) : ∀ (n : Nat) (l : List α),
    (resizeTo dflt n l).length = n := by
  intro n
  induction n with
  | zero => intro l; rfl
  | succ m ih =>
    intro l
    cases l with
    | nil => simpa [resizeTo] using ih []
    | cons h t => simpa [resizeTo] using ih t

lemma getElem?_set_general {α : Type} : ∀ (l : List α) (i n : Nat) (a : α),
    (l.set i a)[n]? = if i = n ∧ i < l.length then some a else l[n]? := by
  intro l
  induction l with
  | nil => intro i n a; simp
  | cons h t ih =>
    intro i n a
    cases i with
    | zero =>
      cases n with
      | zero => simp
      | succ m => simp
    | succ j =>
      cases n with
      | zero => simp
      | succ m =>
        have := ih j m a
        simp only [List.set, List.getElem?_cons_succ, List.length_cons]
        rw [this]
        by_cases hc : j = m ∧ j < t.length
        · rw [if_pos hc, if_pos ⟨by omega, by omega⟩]
        · rw [if_neg hc, if_neg (by omega)]

lemma foldl_set_getElem {α : Type} (f : Nat → α) : ∀ (l : List Nat) (buf : List α) (x : Nat),
    ((l.foldl (fun b i => b.set i (f i)) buf))[x]? =
      if x ∈ l ∧ x < buf.length then some (f x) else buf[x]? := by
  intro l
  induction l with
  | nil =>
    intro buf x
    simp
  | cons i t ih =>
    intro buf x
    have hlen : (buf.set i (f i)).length = buf.length := by simp
    have hfold : ((i :: t).foldl (fun b j => b.set j (f j)) buf) =
        (t.foldl (fun b j => b.set j (f j)) (buf.set i (f i))) := rfl
    rw [hfold, ih (buf.set i (f i)) x, hlen, getElem?_set_general]
    by_cases hmem : x ∈ t ∧ x < buf.length
    · rw [if_pos hmem, if_pos ⟨List.mem_cons_of_mem i hmem.1, hmem.2⟩]
    · rw [if_neg hmem]
      by_cases hxi : i = x ∧ i < buf.length
      · rw [if_pos hxi, if_pos ⟨by rw [← hxi.1]; exact List.mem_cons_self i t, by omega⟩,
            hxi.1]
      · rw [if_neg hxi, if_neg (by
          intro hcon
          rcases List.mem_cons.mp hcon.1 with hx | hx
          · exact hxi ⟨hx.symm, by omega⟩
          · exact hmem ⟨hx, hcon.2⟩)]

lemma slice_create_data {Pix : Type} (prev : RangeDiffusionSlice) (y steps : Nat)
    (img : LuvRangeImage Pix) (dw : DiffusionWeight) (x : Nat) (hx : x < img.width) :
    ((prev.Create y steps img dw).data)[x]? = some (maskFor img dw y steps x) := by
  unfold RangeDiffusionSlice.Create
  simp only []
  rw [foldl_set_getElem]
  rw [if_pos ⟨List.mem_range.mpr hx, by rw [resizeTo_length]; exact hx⟩]

lemma slice_create_get {Pix : Type} (prev : RangeDiffusionSlice) (y steps : Nat)
    (img : LuvRangeImage Pix) (dw : DiffusionWeight) (x : Nat) (u v : Int)
    (hx : x < img.width) :
    (prev.Create y steps img dw).Get x u v =
      if u.natAbs + v.natAbs ≤ steps then
        walk img dw (x : Int) (y : Int) steps ((x : Int) + u) ((y : Int) + v)
      else 0 := by
  unfold RangeDiffusionSlice.Get
  by_cases hc : u.natAbs + v.natAbs ≤ steps
  · rw [if_pos ⟨hx, hc⟩, slice_create_data prev y steps img dw x hx, if_pos hc]
    rfl
  · rw [if_neg (by
      intro hcon
      exact hc hcon.2), if_neg hc]

lemma walk_nonneg {Pix : Type} (img : LuvRangeImage Pix) (dw : DiffusionWeight)
    (x y : Int) (hnn : ∀ a b : Int, ∀ d : Nat, 0 ≤ dw.Get a b d) :
    ∀ (k : Nat) (a b : Int), 0 ≤ walk img dw x y k a b := by
  intro k
  induction k with
  | zero =>
    intro a b
    unfold walk
    by_cases hc : a = x ∧ b = y ∧ img.valid x y = true
    · rw [if_pos hc]; norm_num
    · rw [if_neg hc]
  | succ m ih =>
    intro a b
    unfold walk
    have h0 : 0 ≤ if outWeight dw a b = 0 then walk img dw x y m a b else 0 := by
      by_cases hc : outWeight dw a b = 0
      · rw [if_pos hc]; exact ih a b
      · rw [if_neg hc]
    have h1 := mul_nonneg (ih (a - 1) b) (hnn (a - 1) b 0)
    have h2 := mul_nonneg (ih a (b - 1)) (hnn a (b - 1) 1)
    have h3 := mul_nonneg (ih (a + 1) b) (hnn (a + 1) b 2)
    have h4 := mul_nonneg (ih a (b + 1)) (hnn a (b + 1) 3)
    linarith

lemma walk_manhattan {Pix : Type} (img : LuvRangeImage Pix) (dw : DiffusionWeight)
    (x y : Int) : ∀ (k : Nat) (a b : Int), walk img dw x y k a b ≠ 0 →
      (a - x).natAbs + (b - y).natAbs ≤ k := by
  intro k
  induction k with
  | zero =>
    intro a b h
    unfold walk at h
    by_cases hc : a = x ∧ b = y ∧ img.valid x y = true
    · obtain ⟨rfl, rfl, hv⟩ := hc
      simp
    · rw [if_neg hc] at h
      exact absurd rfl h
  | succ m ih =>
    intro a b h
    unfold walk at h
    have hor : (if outWeight dw a b = 0 then walk img dw x y m a b else 0) ≠ 0 ∨
        walk img dw x y m (a - 1) b * dw.Get (a - 1) b 0 ≠ 0 ∨
        walk img dw x y m a (b - 1) * dw.Get a (b - 1) 1 ≠ 0 ∨
        walk img dw x y m (a + 1) b * dw.Get (a + 1) b 2 ≠ 0 ∨
        walk img dw x y m a (b + 1) * dw.Get a (b + 1) 3 ≠ 0 := by
      by_contra hcon
      push_neg at hcon
      obtain ⟨c1, c2, c3, c4, c5⟩ := hcon
      rw [c1, c2, c3, c4, c5] at h
      norm_num at h
    rcases hor with hc | hc | hc | hc | hc
    · have hw : walk img dw x y m a b ≠ 0 := by
        by_cases ho : outWeight dw a b = 0
        · rwa [if_pos ho] at hc
        · rw [if_neg ho] at hc
          exact absurd rfl hc
      have := ih a b hw
      omega
    · have := ih (a - 1) b (by
        intro hz
        rw [hz, zero_mul] at hc
        exact hc rfl)
      omega
    · have := ih a (b - 1) (by
        intro hz
        rw [hz, zero_mul] at hc
        exact hc rfl)
      omega
    · have := ih (a + 1) b (by
        intro hz
        rw [hz, zero_mul] at hc
        exact hc rfl)
      omega
    · have := ih a (b + 1) (by
        intro hz
        rw [hz, zero_mul] at hc
        exact hc rfl)
      omega

lemma walk_valid {Pix : Type} (img : LuvRangeImage Pix) (dw : DiffusionWeight)
    (x y : Int)
    (htarget : ∀ (a b : Int) (d : Nat), dw.Get a b d ≠ 0 → neighbourValid img a b d = true) :
    ∀ (k : Nat) (a b : Int), walk img dw x y k a b ≠ 0 → img.valid a b = true := by
  intro k
  induction k with
  | zero =>
    intro a b h
    unfold walk at h
    by_cases hc : a = x ∧ b = y ∧ img.valid x y = true
    · obtain ⟨rfl, rfl, hv⟩ := hc
      exact hv
    · rw [if_neg hc] at h
      exact absurd rfl h
  | succ m ih =>
    intro a b h
    unfold walk at h
    have hor : (if outWeight dw a b = 0 then walk img dw x y m a b else 0) ≠ 0 ∨
        walk img dw x y m (a - 1) b * dw.Get (a - 1) b 0 ≠ 0 ∨
        walk img dw x y m a (b - 1) * dw.Get a (b - 1) 1 ≠ 0 ∨
        walk img dw x y m (a + 1) b * dw.Get (a + 1) b 2 ≠ 0 ∨
        walk img dw x y m a (b + 1) * dw.Get a (b + 1) 3 ≠ 0 := by
      by_contra hcon
      push_neg at hcon
      obtain ⟨c1, c2, c3, c4, c5⟩ := hcon
      rw [c1, c2, c3, c4, c5] at h
      norm_num at h
    rcases hor with hc | hc | hc | hc | hc
    · apply ih a b
      by_cases ho : outWeight dw a b = 0
      · rwa [if_pos ho] at hc
      · rw [if_neg ho] at hc
        exact absurd rfl hc
    · have hg : dw.Get (a - 1) b 0 ≠ 0 := by
        intro hz
        rw [hz, mul_zero] at hc
        exact hc rfl
      have hv := htarget (a - 1) b 0 hg
      unfold neighbourValid at hv
      simp only [dirOffset] at hv
      have hrw : a - 1 + 1 = a := by ring
      rw [hrw, add_zero] at hv
      exact hv
    · have hg : dw.Get a (b - 1) 1 ≠ 0 := by
        intro hz
        rw [hz, mul_zero] at hc
        exact hc rfl
      have hv := htarget a (b - 1) 1 hg
      unfold neighbourValid at hv
      simp only [dirOffset] at hv
      have hrw : b - 1 + 1 = b := by ring
      rw [hrw, add_zero] at hv
      exact hv
    · have hg : dw.Get (a + 1) b 2 ≠ 0 := by
        intro hz
        rw [hz, mul_zero] at hc
        exact hc rfl
      have hv := htarget (a + 1) b 2 hg
      unfold neighbourValid at hv
      simp only [dirOffset] at hv
      have hrw : a + 1 + -1 = a := by ring
      rw [hrw, add_zero] at hv
      exact hv
    · have hg : dw.Get a (b + 1) 3 ≠ 0 := by
        intro hz
        rw [hz, mul_zero] at hc
        exact hc rfl
      have hv := htarget a (b + 1) 3 hg
      unfold neighbourValid at hv
      simp only [dirOffset] at hv
      have hrw : b + 1 + -1 = b := by ring
      rw [hrw, add_zero] at hv
      exact hv

lemma walk_src_invalid {Pix : Type} (img : LuvRangeImage Pix) (dw : DiffusionWeight)
    (x y : Int) (hv : img.valid x y = false) :
    ∀ (k : Nat) (a b : Int), walk img dw x y k a b = 0 := by
  intro k
  induction k with
  | zero =>
    intro a b
    unfold walk
    rw [if_neg (by
      intro hc
      rw [hc.2.2] at hv
      exact Bool.true_eq_false.mp hv)]
  | succ m ih =>
    intro a b
    unfold walk
    rw [ih a b, ih (a - 1) b, ih a (b - 1), ih (a + 1) b, ih a (b + 1)]
    norm_num

lemma create_target_valid {Pix : Type} (img : LuvRangeImage Pix)
    (dist : Pix → Pix → ℚ) (distMult : ℚ) (negExp : ℚ → ℚ) :
    ∀ (a b : Int) (d : Nat),
      (DiffusionWeight.Create img dist distMult negExp).Get a b d ≠ 0 →
        neighbourValid img a b d = true := by
  intro a b d h
  by_cases hv : neighbourValid img a b d = true
  · exact hv
  · exact absurd (create_get_invalid_dir img dist distMult negExp a b d
      (Bool.not_eq_true _ ▸ (by simpa using hv))) h

lemma outWeight_create {Pix : Type} (img : LuvRangeImage Pix)
    (dist : Pix → Pix → ℚ) (distMult : ℚ) (negExp : ℚ → ℚ)
    (hpos : ∀ q : ℚ, 0 ≤ q → 0 < negExp q) (a b : Int) :
    outWeight (DiffusionWeight.Create img dist distMult negExp) a b =
      if img.valid a b = true ∧ validDirs img a b ≠ [] then 1 else 0 := by
  by_cases hc : img.valid a b = true ∧ validDirs img a b ≠ []
  · rw [if_pos hc]
    exact create_get_sum img dist distMult negExp hpos a b hc.1 hc.2
  · rw [if_neg hc]
    unfold outWeight
    rw [create_get_zero_case img dist distMult negExp a b 0 hc,
        create_get_zero_case img dist distMult negExp a b 1 hc,
        create_get_zero_case img dist distMult negExp a b 2 hc,
        create_get_zero_case img dist distMult negExp a b 3 hc]
    norm_num

lemma outWeight_create_cases {Pix : Type} (img : LuvRangeImage Pix)
    (distW : Pix → Pix → ℚ) (distMult : ℚ) (negExp : ℚ → ℚ)
    (hpos : ∀ q : ℚ, 0 ≤ q → 0 < negExp q) :
    ∀ a b : Int, outWeight (DiffusionWeight.Create img distW distMult negExp) a b = 0 ∨
      outWeight (DiffusionWeight.Create img distW distMult negExp) a b = 1 := by
  intro a b
  rw [outWeight_create img distW distMult negExp hpos a b]
  by_cases hc : img.valid a b = true ∧ validDirs img a b ≠ []
  · rw [if_pos hc]
    right
    rfl
  · rw [if_neg hc]
    left
    rfl

lemma sum_Icc_shift (f : Int → ℚ) (l r c : Int) :
    ∑ a in Finset.Icc l r, f (a + c) = ∑ a in Finset.Icc (l + c) (r + c), f a := by
  rw [← Finset.map_add_right_Icc, Finset.sum_map]
  rfl

lemma sum_box_superset (f : Int → Int → ℚ) {la ra lb rb LA RA LB RB : Int}
    (h1 : LA ≤ la) (h2 : ra ≤ RA) (h3 : LB ≤ lb) (h4 : rb ≤ RB)
    (hf : ∀ a b : Int, f a b ≠ 0 → (la ≤ a ∧ a ≤ ra) ∧ (lb ≤ b ∧ b ≤ rb)) :
    (∑ a in Finset.Icc LA RA, ∑ b in Finset.Icc LB RB, f a b) =
      ∑ a in Finset.Icc la ra, ∑ b in Finset.Icc lb rb, f a b := by
  have hinner : ∀ a : Int, (∑ b in Finset.Icc LB RB, f a b) =
      ∑ b in Finset.Icc lb rb, f a b := by
    intro a
    refine (Finset.sum_subset (Finset.Icc_subset_Icc h3 h4) ?_).symm
    intro b _ hbs
    by_contra hne
    exact hbs (Finset.mem_Icc.mpr (hf a b hne).2)
  calc (∑ a in Finset.Icc LA RA, ∑ b in Finset.Icc LB RB, f a b)
      = ∑ a in Finset.Icc LA RA, ∑ b in Finset.Icc lb rb, f a b :=
        Finset.sum_congr rfl (fun a _ => hinner a)
    _ = ∑ a in Finset.Icc la ra, ∑ b in Finset.Icc lb rb, f a b := by
        refine (Finset.sum_subset (Finset.Icc_subset_Icc h1 h2) ?_).symm
        intro a _ has
        refine Finset.sum_eq_zero ?_
        intro b _
        by_contra hne
        exact has (Finset.mem_Icc.mpr (hf a b hne).1)

lemma walk_box_sum {Pix : Type} (img : LuvRangeImage Pix) (dw : DiffusionWeight)
    (x y : Int)
    (hout : ∀ a b : Int, outWeight dw a b = 0 ∨ outWeight dw a b = 1) :
    ∀ (k : Nat) (la ra lb rb : Int),
      la ≤ x - k → x + k ≤ ra → lb ≤ y - k → y + k ≤ rb →
      (∑ a in Finset.Icc la ra, ∑ b in Finset.Icc lb rb, walk img dw x y k a b) =
        if img.valid x y = true then 1 else 0 := by
  intro k
  induction k with
  | zero =>
    intro la ra lb rb hla hra hlb hrb
    simp only [Nat.cast_zero, sub_zero, add_zero] at hla hra hlb hrb
    have hy : y ∈ Finset.Icc lb rb := Finset.mem_Icc.mpr ⟨hlb, hrb⟩
    have hx : x ∈ Finset.Icc la ra := Finset.mem_Icc.mpr ⟨hla, hra⟩
    have h1 : ∀ a ∈ Finset.Icc la ra, (∑ b in Finset.Icc lb rb, walk img dw x y 0 a b) =
        if a = x then (if img.valid x y = true then 1 else 0) else 0 := by
      intro a _
      by_cases hax : a = x
      · subst hax
        rw [if_pos rfl]
        have hpt : ∀ b : Int, walk img dw a y 0 a b =
            if b = y then (if img.valid a y = true then 1 else 0) else 0 := by
          intro b
          unfold walk
          by_cases hby : b = y
          · subst hby
            by_cases hv : img.valid a b = true
            · rw [if_pos ⟨rfl, rfl, hv⟩, if_pos rfl, if_pos hv]
            · rw [if_neg (by
                intro hc
                exact hv hc.2.2), if_pos rfl, if_neg hv]
          · rw [if_neg (by
              intro hc
              exact hby hc.2.1), if_neg hby]
        rw [Finset.sum_congr rfl (fun b _ => hpt b)]
        rw [Finset.sum_ite_eq' (Finset.Icc lb rb) y
          (fun _ => if img.valid a y = true then 1 else 0), if_pos hy]
      · rw [if_neg hax]
        refine Finset.sum_eq_zero ?_
        intro b _
        unfold walk
        rw [if_neg (by
          intro hc
          exact hax hc.1)]
    rw [Finset.sum_congr rfl h1]
    rw [Finset.sum_ite_eq' (Finset.Icc la ra) x
      (fun _ => if img.valid x y = true then 1 else 0), if_pos hx]
  | succ m ih =>
    intro la ra lb rb hla hra hlb hrb
    have hcast : ((m + 1 : Nat) : Int) = (m : Int) + 1 := by push_cast; ring
    rw [hcast] at hla hra hlb hrb
    have hsupp : ∀ a b : Int, walk img dw x y m a b ≠ 0 →
        (x - m ≤ a ∧ a ≤ x + m) ∧ (y - m ≤ b ∧ b ≤ y + m) := by
      intro a b hne
      have := walk_manhattan img dw x y m a b hne
      omega
    have hdecomp : (∑ a in Finset.Icc la ra, ∑ b in Finset.Icc lb rb,
        walk img dw x y (m + 1) a b) =
        (∑ a in Finset.Icc la ra, ∑ b in Finset.Icc lb rb,
          (if outWeight dw a b = 0 then walk img dw x y m a b else 0)) +
        (∑ a in Finset.Icc la ra, ∑ b in Finset.Icc lb rb,
          walk img dw x y m (a - 1) b * dw.Get (a - 1) b 0) +
        (∑ a in Finset.Icc la ra, ∑ b in Finset.Icc lb rb,
          walk img dw x y m a (b - 1) * dw.Get a (b - 1) 1) +
        (∑ a in Finset.Icc la ra, ∑ b in Finset.Icc lb rb,
          walk img dw x y m (a + 1) b * dw.Get (a + 1) b 2) +
        (∑ a in Finset.Icc la ra, ∑ b in Finset.Icc lb rb,
          walk img dw x y m a (b + 1) * dw.Get a (b + 1) 3) := by
      simp only [← Finset.sum_add_distrib]
      rfl
    rw [hdecomp]
    have hstay : (∑ a in Finset.Icc la ra, ∑ b in Finset.Icc lb rb,
        (if outWeight dw a b = 0 then walk img dw x y m a b else 0)) =
        ∑ a in Finset.Icc (x - m) (x + m), ∑ b in Finset.Icc (y - m) (y + m),
          (if outWeight dw a b = 0 then walk img dw x y m a b else 0) := by
      refine sum_box_superset _ (by omega) (by omega) (by omega) (by omega) ?_
      intro a b hne
      refine hsupp a b ?_
      intro hz
      rw [hz] at hne
      simp at hne
    have ht0 : (∑ a in Finset.Icc la ra, ∑ b in Finset.Icc lb rb,
        walk img dw x y m (a - 1) b * dw.Get (a - 1) b 0) =
        ∑ a in Finset.Icc (x - m) (x + m), ∑ b in Finset.Icc (y - m) (y + m),
          walk img dw x y m a b * dw.Get a b 0 := by
      have hsh : (∑ a in Finset.Icc la ra, ∑ b in Finset.Icc lb rb,
          walk img dw x y m (a - 1) b * dw.Get (a - 1) b 0) =
          ∑ a in Finset.Icc (la + -1) (ra + -1), ∑ b in Finset.Icc lb rb,
            walk img dw x y m a b * dw.Get a b 0 := by
        rw [← sum_Icc_shift (fun a => ∑ b in Finset.Icc lb rb,
          walk img dw x y m a b * dw.Get a b 0) la ra (-1)]
        refine Finset.sum_congr rfl ?_
        intro a _
        have : a + -1 = a - 1 := by ring
        rw [this]
      rw [hsh]
      refine sum_box_superset _ (by omega) (by omega) (by omega) (by omega) ?_
      intro a b hne
      exact hsupp a b (by
        intro hz
        rw [hz, zero_mul] at hne
        exact hne rfl)
    have ht1 : (∑ a in Finset.Icc la ra, ∑ b in Finset.Icc lb rb,
        walk img dw x y m a (b - 1) * dw.Get a (b - 1) 1) =
        ∑ a in Finset.Icc (x - m) (x + m), ∑ b in Finset.Icc (y - m) (y + m),
          walk img dw x y m a b * dw.Get a b 1 := by
      have hsh : (∑ a in Finset.Icc la ra, ∑ b in Finset.Icc lb rb,
          walk img dw x y m a (b - 1) * dw.Get a (b - 1) 1) =
          ∑ a in Finset.Icc la ra, ∑ b in Finset.Icc (lb + -1) (rb + -1),
            walk img dw x y m a b * dw.Get a b 1 := by
        refine Finset.sum_congr rfl ?_
        intro a _
        rw [← sum_Icc_shift (fun b => walk img dw x y m a b * dw.Get a b 1) lb rb (-1)]
        refine Finset.sum_congr rfl ?_
        intro b _
        have : b + -1 = b - 1 := by ring
        rw [this]
      rw [hsh]
      refine sum_box_superset _ (by omega) (by omega) (by omega) (by omega) ?_
      intro a b hne
      exact hsupp a b (by
        intro hz
        rw [hz, zero_mul] at hne
        exact hne rfl)
    have ht2 : (∑ a in Finset.Icc la ra, ∑ b in Finset.Icc lb rb,
        walk img dw x y m (a + 1) b * dw.Get (a + 1) b 2) =
        ∑ a in Finset.Icc (x - m) (x + m), ∑ b in Finset.Icc (y - m) (y + m),
          walk img dw x y m a b * dw.Get a b 2 := by
      have hsh : (∑ a in Finset.Icc la ra, ∑ b in Finset.Icc lb rb,
          walk img dw x y m (a + 1) b * dw.Get (a + 1) b 2) =
          ∑ a in Finset.Icc (la + 1) (ra + 1), ∑ b in Finset.Icc lb rb,
            walk img dw x y m a b * dw.Get a b 2 := by
        rw [← sum_Icc_shift (fun a => ∑ b in Finset.Icc lb rb,
          walk img dw x y m a b * dw.Get a b 2) la ra 1]
      rw [hsh]
      refine sum_box_superset _ (by omega) (by omega) (by omega) (by omega) ?_
      intro a b hne
      exact hsupp a b (by
        intro hz
        rw [hz, zero_mul] at hne
        exact hne rfl)
    have ht3 : (∑ a in Finset.Icc la ra, ∑ b in Finset.Icc lb rb,
        walk img dw x y m a (b + 1) * dw.Get a (b + 1) 3) =
        ∑ a in Finset.Icc (x - m) (x + m), ∑ b in Finset.Icc (y - m) (y + m),
          walk img dw x y m a b * dw.Get a b 3 := by
      have hsh : (∑ a in Finset.Icc la ra, ∑ b in Finset.Icc lb rb,
          walk img dw x y m a (b + 1) * dw.Get a (b + 1) 3) =
          ∑ a in Finset.Icc la ra, ∑ b in Finset.Icc (lb + 1) (rb + 1),
            walk img dw x y m a b * dw.Get a b 3 := by
        refine Finset.sum_congr rfl ?_
        intro a _
        rw [← sum_Icc_shift (fun b => walk img dw x y m a b * dw.Get a b 3) lb rb 1]
      rw [hsh]
      refine sum_box_superset _ (by omega) (by omega) (by omega) (by omega) ?_
      intro a b hne
      exact hsupp a b (by
        intro hz
        rw [hz, zero_mul] at hne
        exact hne rfl)
    rw [hstay, ht0, ht1, ht2, ht3]
    have hrecomb : (∑ a in Finset.Icc (x - m) (x + m), ∑ b in Finset.Icc (y - m) (y + m),
        (if outWeight dw a b = 0 then walk img dw x y m a b else 0)) +
        (∑ a in Finset.Icc (x - m) (x + m), ∑ b in Finset.Icc (y - m) (y + m),
          walk img dw x y m a b * dw.Get a b 0) +
        (∑ a in Finset.Icc (x - m) (x + m), ∑ b in Finset.Icc (y - m) (y + m),
          walk img dw x y m a b * dw.Get a b 1) +
        (∑ a in Finset.Icc (x - m) (x + m), ∑ b in Finset.Icc (y - m) (y + m),
          walk img dw x y m a b * dw.Get a b 2) +
        (∑ a in Finset.Icc (x - m) (x + m), ∑ b in Finset.Icc (y - m) (y + m),
          walk img dw x y m a b * dw.Get a b 3) =
        ∑ a in Finset.Icc (x - m) (x + m), ∑ b in Finset.Icc (y - m) (y + m),
          walk img dw x y m a b := by
      simp only [← Finset.sum_add_distrib]
      refine Finset.sum_congr rfl ?_
      intro a _
      refine Finset.sum_congr rfl ?_
      intro b _
      rcases hout a b with ho | ho
      · rw [if_pos ho]
        unfold outWeight at ho
        linear_combination walk img dw x y m a b * ho
      · rw [if_neg (by rw [ho]; norm_num)]
        unfold outWeight at ho
        linear_combination walk img dw x y m a b * ho
    rw [hrecomb]
    exact ih (x - m) (x + m) (y - m) (y + m) (le_refl _) (le_refl _) (le_refl _) (le_refl _)

lemma slice_get_out_of_ball (s : RangeDiffusionSlice) (x : Nat) (u v : Int)
    (h : s.steps < u.natAbs + v.natAbs) : s.Get x u v = 0 := by
  unfold RangeDiffusionSlice.Get
  rw [if_neg (by
    intro hc
    omega)]

lemma slice_get_out_of_width (s : RangeDiffusionSlice) (x : Nat) (u v : Int)
    (h : s.width ≤ x) : s.Get x u v = 0 := by
  unfold RangeDiffusionSlice.Get
  rw [if_neg (by
    intro hc
    omega)]

lemma create_width {Pix : Type} (prev : RangeDiffusionSlice) (y steps : Nat)
    (img : LuvRangeImage Pix) (dw : DiffusionWeight) :
    (prev.Create y steps img dw).width = img.width := rfl

lemma create_steps {Pix : Type} (prev : RangeDiffusionSlice) (y steps : Nat)
    (img : LuvRangeImage Pix) (dw : DiffusionWeight) :
    (prev.Create y steps img dw).steps = steps := rfl

lemma valid_lt_width {Pix : Type} (img : LuvRangeImage Pix) (x : Nat) (y : Int)
    (h : img.valid (x : Int) y = true) : x < img.width := by
  unfold LuvRangeImage.valid at h
  simp only [Bool.and_eq_true, decide_eq_true_eq] at h
  exact_mod_cast h.1.1.1.2

lemma valid_false_of_ge_width {Pix : Type} (img : LuvRangeImage Pix) (x : Nat) (y : Int)
    (h : img.width ≤ x) : img.valid (x : Int) y = false := by
  unfold LuvRangeImage.valid
  have hlt : ¬ ((x : Int) < (img.width : Int)) := by
    push_neg
    exact_mod_cast h
  simp [hlt]

lemma slice_get_nonneg {Pix : Type} (img : LuvRangeImage Pix) (distW : Pix → Pix → ℚ)
    (distMult : ℚ) (negExp : ℚ → ℚ) (hpos : ∀ q : ℚ, 0 ≤ q → 0 < negExp q)
    (prev : RangeDiffusionSlice) (y steps : Nat) (x : Nat) (u v : Int) :
    0 ≤ (prev.Create y steps img (DiffusionWeight.Create img distW distMult negExp)).Get x u v := by
  by_cases hx : x < img.width
  · rw [slice_create_get prev y steps img _ x u v hx]
    by_cases hc : u.natAbs + v.natAbs ≤ steps
    · rw [if_pos hc]
      exact walk_nonneg img _ (x : Int) (y : Int)
        (fun a b d => create_get_nonneg img distW distMult negExp hpos a b d) steps _ _
    · rw [if_neg hc]
  · rw [slice_get_out_of_width _ x u v (by rw [create_width]; omega)]

lemma slice_sum_get {Pix : Type} (img : LuvRangeImage Pix) (distW : Pix → Pix → ℚ)
    (distMult : ℚ) (negExp : ℚ → ℚ) (hpos : ∀ q : ℚ, 0 ≤ q → 0 < negExp q)
    (prev : RangeDiffusionSlice) (y steps : Nat) (x : Nat) :
    (∑ p in offsetBall steps,
      (prev.Create y steps img (DiffusionWeight.Create img distW distMult negExp)).Get
        x p.1 p.2) =
      if img.valid (x : Int) (y : Int) = true then 1 else 0 := by
  by_cases hx : x < img.width
  · have hfilter : (∑ p in offsetBall steps,
        (prev.Create y steps img (DiffusionWeight.Create img distW distMult negExp)).Get
          x p.1 p.2) =
        ∑ u in Finset.Icc (-(steps : Int)) (steps : Int),
          ∑ v in Finset.Icc (-(steps : Int)) (steps : Int),
            (prev.Create y steps img (DiffusionWeight.Create img distW distMult negExp)).Get
              x u v := by
      unfold offsetBall
      rw [Finset.sum_filter]
      rw [Finset.sum_product]
      refine Finset.sum_congr rfl ?_
      intro u _
      refine Finset.sum_congr rfl ?_
      intro v _
      by_cases hc : u.natAbs + v.natAbs ≤ steps
      · rw [if_pos hc]
      · rw [if_neg hc, slice_get_out_of_ball _ x u v (by rw [create_steps]; omega)]
    rw [hfilter]
    have hpt : ∀ u v : Int,
        (prev.Create y steps img (DiffusionWeight.Create img distW distMult negExp)).Get
          x u v =
        walk img (DiffusionWeight.Create img distW distMult negExp) (x : Int) (y : Int)
          steps ((x : Int) + u) ((y : Int) + v) := by
      intro u v
      rw [slice_create_get prev y steps img _ x u v hx]
      by_cases hc : u.natAbs + v.natAbs ≤ steps
      · rw [if_pos hc]
      · rw [if_neg hc]
        by_contra hne
        have := walk_manhattan img _ (x : Int) (y : Int) steps ((x : Int) + u)
          ((y : Int) + v) (fun hz => hne hz.symm)
        have hu : ((x : Int) + u - (x : Int)) = u := by ring
        have hv : ((y : Int) + v - (y : Int)) = v := by ring
        rw [hu, hv] at this
        omega
    rw [Finset.sum_congr rfl (fun u _ => Finset.sum_congr rfl (fun v _ => hpt u v))]
    have hshiftv : ∀ u : Int,
        (∑ v in Finset.Icc (-(steps : Int)) (steps : Int),
          walk img (DiffusionWeight.Create img distW distMult negExp) (x : Int) (y : Int)
            steps ((x : Int) + u) ((y : Int) + v)) =
        ∑ b in Finset.Icc (-(steps : Int) + (y : Int)) ((steps : Int) + (y : Int)),
          walk img (DiffusionWeight.Create img distW distMult negExp) (x : Int) (y : Int)
            steps ((x : Int) + u) b := by
      intro u
      rw [← sum_Icc_shift (fun b =>
        walk img (DiffusionWeight.Create img distW distMult negExp) (x : Int) (y : Int)
          steps ((x : Int) + u) b) (-(steps : Int)) (steps : Int) (y : Int)]
      refine Finset.sum_congr rfl ?_
      intro v _
      rw [add_comm v (y : Int)]
    rw [Finset.sum_congr rfl (fun u _ => hshiftv u)]
    have hcongru : (∑ a in Finset.Icc (-(steps : Int)) (steps : Int),
        ∑ b in Finset.Icc (-(steps : Int) + (y : Int)) ((steps : Int) + (y : Int)),
          walk img (DiffusionWeight.Create img distW distMult negExp) (x : Int) (y : Int)
            steps ((x : Int) + a) b) =
        ∑ a in Finset.Icc (-(steps : Int)) (steps : Int),
          ∑ b in Finset.Icc (-(steps : Int) + (y : Int)) ((steps : Int) + (y : Int)),
            walk img (DiffusionWeight.Create img distW distMult negExp) (x : Int) (y : Int)
              steps (a + (x : Int)) b := by
      refine Finset.sum_congr rfl ?_
      intro a _
      rw [add_comm (x : Int) a]
    rw [hcongru]
    rw [sum_Icc_shift (fun a =>
      ∑ b in Finset.Icc (-(steps : Int) + (y : Int)) ((steps : Int) + (y : Int)),
        walk img (DiffusionWeight.Create img distW distMult negExp) (x : Int) (y : Int)
          steps a b) (-(steps : Int)) (steps : Int) (x : Int)]
    exact walk_box_sum img (DiffusionWeight.Create img distW distMult negExp)
      (x : Int) (y : Int)
      (outWeight_create_cases img distW distMult negExp hpos)
      steps (-(steps : Int) + (x : Int)) ((steps : Int) + (x : Int))
      (-(steps : Int) + (y : Int)) ((steps : Int) + (y : Int))
      (by omega) (by omega) (by omega) (by omega)
  · have hvf : img.valid (x : Int) (y : Int) = false :=
      valid_false_of_ge_width img x (y : Int) (by omega)
    rw [Finset.sum_eq_zero (fun p _ =>
      slice_get_out_of_width _ x p.1 p.2 (by rw [create_width]; omega)), hvf]
    simp

lemma pairTerm_nonneg {Pix : Type} (c : DiffuseCorrelation Pix) (x1 x2 : Nat) (u v : Int)
    (hcap : 0 ≤ c.distCap) (hd : ∀ p q : Pix, 0 ≤ c.dist p q)
    (h1 : 0 ≤ c.dif1.Get x1 u v) (h2 : 0 ≤ c.dif2.Get x2 u v) :
    0 ≤ c.pairTerm x1 x2 u v := by
  unfold DiffuseCorrelation.pairTerm
  split_ifs with h
  · exact mul_nonneg (add_nonneg h1 h2) (le_min (hd _ _) hcap)
  · exact le_refl 0

lemma pairTerm_le {Pix : Type} (c : DiffuseCorrelation Pix) (x1 x2 : Nat) (u v : Int)
    (hcap : 0 ≤ c.distCap)
    (h1 : 0 ≤ c.dif1.Get x1 u v) (h2 : 0 ≤ c.dif2.Get x2 u v) :
    c.pairTerm x1 x2 u v ≤ (c.dif1.Get x1 u v + c.dif2.Get x2 u v) * c.distCap := by
  unfold DiffuseCorrelation.pairTerm
  split_ifs with h
  · exact mul_le_mul_of_nonneg_left (min_le_right _ _) (add_nonneg h1 h2)
  · exact mul_nonneg (add_nonneg h1 h2) hcap

lemma cost_le_cap_general {Pix : Type} (c : DiffuseCorrelation Pix) (x1 x2 : Nat)
    (hcap : 0 ≤ c.distCap)
    (hnn1 : ∀ u v : Int, 0 ≤ c.dif1.Get x1 u v) (hnn2 : ∀ u v : Int, 0 ≤ c.dif2.Get x2 u v)
    (hs1 : (∑ p in offsetBall c.dif1.steps, c.dif1.Get x1 p.1 p.2) ≤ 1)
    (hs2 : (∑ p in offsetBall c.dif1.steps, c.dif2.Get x2 p.1 p.2) ≤ 1) :
    c.Cost x1 x2 ≤ c.distCap := by
  unfold DiffuseCorrelation.Cost
  split_ifs with h
  · have hpt : (∑ p in offsetBall c.dif1.steps, c.pairTerm x1 x2 p.1 p.2) ≤
        ∑ p in offsetBall c.dif1.steps,
          (c.dif1.Get x1 p.1 p.2 + c.dif2.Get x2 p.1 p.2) * c.distCap :=
      Finset.sum_le_sum (fun p _ =>
        pairTerm_le c x1 x2 p.1 p.2 hcap (hnn1 p.1 p.2) (hnn2 p.1 p.2))
    have hdist : (∑ p in offsetBall c.dif1.steps,
        (c.dif1.Get x1 p.1 p.2 + c.dif2.Get x2 p.1 p.2) * c.distCap) =
        (∑ p in offsetBall c.dif1.steps, c.dif1.Get x1 p.1 p.2) * c.distCap +
        (∑ p in offsetBall c.dif1.steps, c.dif2.Get x2 p.1 p.2) * c.distCap := by
      rw [← add_mul, ← Finset.sum_add_distrib, Finset.sum_mul]
    have hb1 : (∑ p in offsetBall c.dif1.steps, c.dif1.Get x1 p.1 p.2) * c.distCap ≤
        c.distCap := by
      calc (∑ p in offsetBall c.dif1.steps, c.dif1.Get x1 p.1 p.2) * c.distCap
          ≤ 1 * c.distCap := mul_le_mul_of_nonneg_right hs1 hcap
        _ = c.distCap := one_mul _
    have hb2 : (∑ p in offsetBall c.dif1.steps, c.dif2.Get x2 p.1 p.2) * c.distCap ≤
        c.distCap := by
      calc (∑ p in offsetBall c.dif1.steps, c.dif2.Get x2 p.1 p.2) * c.distCap
          ≤ 1 * c.distCap := mul_le_mul_of_nonneg_right hs2 hcap
        _ = c.distCap := one_mul _
    rw [hdist] at hpt
    linarith
  · exact le_refl _

lemma cost_nonneg_general {Pix : Type} (c : DiffuseCorrelation Pix) (x1 x2 : Nat)
    (hcap : 0 ≤ c.distCap) (hd : ∀ p q : Pix, 0 ≤ c.dist p q)
    (hnn1 : ∀ u v : Int, 0 ≤ c.dif1.Get x1 u v)
    (hnn2 : ∀ u v : Int, 0 ≤ c.dif2.Get x2 u v) :
    0 ≤ c.Cost x1 x2 := by
  unfold DiffuseCorrelation.Cost
  split_ifs with h
  · refine div_nonneg ?_ (by norm_num)
    exact Finset.sum_nonneg (fun p _ =>
      pairTerm_nonneg c x1 x2 p.1 p.2 hcap hd (hnn1 p.1 p.2) (hnn2 p.1 p.2))
  · exact hcap

/-- C2: after DiffusionWeight::Create, for every valid pixel (with at least
one valid neighbour) the four direction weights of Get sum to 1, and for a
masked pixel, or one all of whose four neighbours are invalid, every
direction weight is exactly 0. -/
theorem diffusion_weight_normalisation {Pix : Type} (img : LuvRangeImage Pix)
    (dist : Pix → Pix → ℚ) (distMult : ℚ) (negExp : ℚ → ℚ)
    (hpos : ∀ q : ℚ, 0 ≤ q → 0 < negExp q) (x y : Int) :
    (img.valid x y = true → validDirs img x y ≠ [] →
      (DiffusionWeight.Create img dist distMult negExp).Get x y 0 +
      (DiffusionWeight.Create img dist distMult negExp).Get x y 1 +
      (DiffusionWeight.Create img dist distMult negExp).Get x y 2 +
      (DiffusionWeight.Create img dist distMult negExp).Get x y 3 = 1) ∧
    ((img.valid x y = false ∨ validDirs img x y = []) →
      ∀ d : Nat, (DiffusionWeight.Create img dist distMult negExp).Get x y d = 0) := by
  constructor
  · intro hv hne
    exact create_get_sum img dist distMult negExp hpos x y hv hne
  · intro hc d
    apply create_get_zero_case
    intro hcon
    rcases hc with hc | hc
    · simp [hcon.1] at hc
    · exact hcon.2 hc

/-- Witness for C2 at a concrete valid pixel of a concrete image. -/
theorem diffusion_weight_normalisation_witness :
    (DiffusionWeight.Create imgW distW0 1 expW).Get 0 0 0 +
    (DiffusionWeight.Create imgW distW0 1 expW).Get 0 0 1 +
    (DiffusionWeight.Create imgW distW0 1 expW).Get 0 0 2 +
    (DiffusionWeight.Create imgW distW0 1 expW).Get 0 0 3 = 1 :=
  (diffusion_weight_normalisation imgW distW0 1 expW (fun _ _ => one_pos) 0 0).1
    (by decide) (by decide)

/-- C6: after DiffusionWeight::Create, the weight toward a masked or
off-image neighbour is exactly 0, for every pixel and direction. -/
theorem diffusion_weight_invalid_dir_zero {Pix : Type} (img : LuvRangeImage Pix)
    (dist : Pix → Pix → ℚ) (distMult : ℚ) (negExp : ℚ → ℚ) (x y : Int) (d : Nat)
    (hd : d < 4) (hv : neighbourValid img x y d = false) :
    (DiffusionWeight.Create img dist distMult negExp).Get x y d = 0 :=
  create_get_invalid_dir img dist distMult negExp x y d hv

/-- Witness for C6: direction 2 of pixel (0,0) points off the image. -/
theorem diffusion_weight_invalid_dir_zero_witness :
    (DiffusionWeight.Create imgW distW0 1 expW).Get 0 0 2 = 0 :=
  diffusion_weight_invalid_dir_zero imgW distW0 1 expW 0 0 2 (by omega) (by decide)

/-- C10: the per-pixel direction array of DiffusionWeight has exactly 4
entries, so the unguarded read of Get is in bounds exactly for dir < 4:
the stored array read succeeds for every dir in 0..3 and falls outside the
array for every dir >= 4. -/
theorem diffusion_weight_dir_array_safety {Pix : Type} (img : LuvRangeImage Pix)
    (dist : Pix → Pix → ℚ) (distMult : ℚ) (negExp : ℚ → ℚ) (x y : Int) :
    ((DiffusionWeight.Create img dist distMult negExp).data x y).length = 4 ∧
    ∀ d : Nat,
      (d < 4 →
        ((((DiffusionWeight.Create img dist distMult negExp).data x y)[d]?).isSome = true)) ∧
      (4 ≤ d → ((DiffusionWeight.Create img dist distMult negExp).data x y)[d]? = none) := by
  refine ⟨rfl, ?_⟩
  intro d
  constructor
  · intro hd
    interval_cases d <;> rfl
  · intro hd
    obtain ⟨e, rfl⟩ := Nat.exists_eq_add_of_le hd
    have h4 : 4 + e = e + 4 := by omega
    rw [h4]
    simp [DiffusionWeight.Create, List.getElem?_cons_succ]

/-- Witness for C10 at a concrete pixel and direction. -/
theorem diffusion_weight_dir_array_safety_witness :
    ((((DiffusionWeight.Create imgW distW0 1 expW).data 0 0)[2]?).isSome = true) :=
  ((diffusion_weight_dir_array_safety imgW distW0 1 expW 0 0).2 2).1 (by omega)

/-- C5: RangeDiffusionSlice::Get returns 0 whenever the offset exceeds the
step budget, whenever the source pixel is out of range, and whenever the
bounded walk never deposited weight at the offset. -/
theorem slice_get_zero_out_of_range {Pix : Type} (prev : RangeDiffusionSlice)
    (y steps : Nat) (img : LuvRangeImage Pix) (dw : DiffusionWeight) (x : Nat)
    (u v : Int)
    (h : steps < u.natAbs + v.natAbs ∨ img.width ≤ x ∨
      walk img dw (x : Int) (y : Int) steps ((x : Int) + u) ((y : Int) + v) = 0) :
    (prev.Create y steps img dw).Get x u v = 0 := by
  rcases h with h | h | h
  · exact slice_get_out_of_ball _ x u v (by rw [create_steps]; omega)
  · exact slice_get_out_of_width _ x u v (by rw [create_width]; omega)
  · by_cases hx : x < img.width
    · rw [slice_create_get prev y steps img dw x u v hx]
      by_cases hc : u.natAbs + v.natAbs ≤ steps
      · rw [if_pos hc, h]
      · rw [if_neg hc]
    · exact slice_get_out_of_width _ x u v (by rw [create_width]; omega)

/-- Witness for C5: an offset with abs u + abs v above the step budget. -/
theorem slice_get_zero_out_of_range_witness :
    (RangeDiffusionSlice.init.Create 0 1 imgW dwW).Get 0 2 0 = 0 :=
  slice_get_zero_out_of_range RangeDiffusionSlice.init 0 1 imgW dwW 0 2 0
    (Or.inl (by decide))

/-- C3: after RangeDiffusionSlice::Create, the diffusion mask of a valid
source pixel sums to 1 over all offsets within the step budget, and every
query of a masked or out-of-range source pixel returns 0. -/
theorem slice_weight_conservation {Pix : Type} (img : LuvRangeImage Pix)
    (distW : Pix → Pix → ℚ) (distMult : ℚ) (negExp : ℚ → ℚ)
    (hpos : ∀ q : ℚ, 0 ≤ q → 0 < negExp q) (prev : RangeDiffusionSlice)
    (y steps x : Nat) :
    (img.valid (x : Int) (y : Int) = true →
      (∑ p in offsetBall steps,
        (prev.Create y steps img
          (DiffusionWeight.Create img distW distMult negExp)).Get x p.1 p.2) = 1) ∧
    (img.valid (x : Int) (y : Int) = false →
      ∀ u v : Int,
        (prev.Create y steps img
          (DiffusionWeight.Create img distW distMult negExp)).Get x u v = 0) := by
  constructor
  · intro hv
    rw [slice_sum_get img distW distMult negExp hpos prev y steps x, if_pos hv]
  · intro hv u v
    by_cases hx : x < img.width
    · rw [slice_create_get prev y steps img _ x u v hx]
      by_cases hc : u.natAbs + v.natAbs ≤ steps
      · rw [if_pos hc, walk_src_invalid img _ (x : Int) (y : Int) hv steps _ _]
      · rw [if_neg hc]
    · exact slice_get_out_of_width _ x u v (by rw [create_width]; omega)

/-- Witness for C3 at a concrete valid source pixel. -/
theorem slice_weight_conservation_witness :
    (∑ p in offsetBall 1,
      (RangeDiffusionSlice.init.Create 0 1 imgW
        (DiffusionWeight.Create imgW distW0 1 expW)).Get 0 p.1 p.2) = 1 :=
  (slice_weight_conservation imgW distW0 1 expW (fun _ _ => one_pos)
    RangeDiffusionSlice.init 0 1 0).1 (by decide)

/-- C7: running Create twice on one slice instance with the same width and
step budget but different row, image and weights gives a slice whose every
query equals that of a freshly constructed slice given only the second
call's inputs - no stale storage leaks through. -/
theorem slice_create_no_stale {Pix : Type} (prev : RangeDiffusionSlice)
    (y1 steps : Nat) (img1 : LuvRangeImage Pix) (dw1 : DiffusionWeight)
    (y2 : Nat) (img2 : LuvRangeImage Pix) (dw2 : DiffusionWeight)
    (hw : img1.width = img2.width) (x : Nat) (u v : Int) :
    ((prev.Create y1 steps img1 dw1).Create y2 steps img2 dw2).Get x u v =
      (RangeDiffusionSlice.init.Create y2 steps img2 dw2).Get x u v := by
  by_cases hx : x < img2.width
  · rw [slice_create_get (prev.Create y1 steps img1 dw1) y2 steps img2 dw2 x u v hx,
        slice_create_get RangeDiffusionSlice.init y2 steps img2 dw2 x u v hx]
  · rw [slice_get_out_of_width _ x u v (by rw [create_width]; omega),
        slice_get_out_of_width _ x u v (by rw [create_width]; omega)]

/-- Witness for C7: a query after two Create calls with different data. -/
theorem slice_create_no_stale_witness :
    ((RangeDiffusionSlice.init.Create 0 1 imgW dwW).Create 0 1 imgW2 dwW2).Get 0 1 0 =
      (RangeDiffusionSlice.init.Create 0 1 imgW2 dwW2).Get 0 1 0 :=
  slice_create_no_stale RangeDiffusionSlice.init 0 1 imgW dwW 0 imgW2 dwW2 rfl 0 1 0

lemma create_y {Pix : Type} (prev : RangeDiffusionSlice) (y steps : Nat)
    (img : LuvRangeImage Pix) (dw : DiffusionWeight) :
    (prev.Create y steps img dw).y = y := rfl

lemma setup_dist {Pix : Type} (d : Pix → Pix → ℚ) (cap : ℚ) (i1 : LuvRangeImage Pix)
    (s1 : RangeDiffusionSlice) (i2 : LuvRangeImage Pix) (s2 : RangeDiffusionSlice) :
    (DiffuseCorrelation.Setup d cap i1 s1 i2 s2).dist = d := rfl

lemma setup_distCap {Pix : Type} (d : Pix → Pix → ℚ) (cap : ℚ) (i1 : LuvRangeImage Pix)
    (s1 : RangeDiffusionSlice) (i2 : LuvRangeImage Pix) (s2 : RangeDiffusionSlice) :
    (DiffuseCorrelation.Setup d cap i1 s1 i2 s2).distCap = cap := rfl

lemma setup_img1 {Pix : Type} (d : Pix → Pix → ℚ) (cap : ℚ) (i1 : LuvRangeImage Pix)
    (s1 : RangeDiffusionSlice) (i2 : LuvRangeImage Pix) (s2 : RangeDiffusionSlice) :
    (DiffuseCorrelation.Setup d cap i1 s1 i2 s2).img1 = i1 := rfl

lemma setup_dif1 {Pix : Type} (d : Pix → Pix → ℚ) (cap : ℚ) (i1 : LuvRangeImage Pix)
    (s1 : RangeDiffusionSlice) (i2 : LuvRangeImage Pix) (s2 : RangeDiffusionSlice) :
    (DiffuseCorrelation.Setup d cap i1 s1 i2 s2).dif1 = s1 := rfl

lemma setup_img2 {Pix : Type} (d : Pix → Pix → ℚ) (cap : ℚ) (i1 : LuvRangeImage Pix)
    (s1 : RangeDiffusionSlice) (i2 : LuvRangeImage Pix) (s2 : RangeDiffusionSlice) :
    (DiffuseCorrelation.Setup d cap i1 s1 i2 s2).img2 = i2 := rfl

lemma setup_dif2 {Pix : Type} (d : Pix → Pix → ℚ) (cap : ℚ) (i1 : LuvRangeImage Pix)
    (s1 : RangeDiffusionSlice) (i2 : LuvRangeImage Pix) (s2 : RangeDiffusionSlice) :
    (DiffuseCorrelation.Setup d cap i1 s1 i2 s2).dif2 = s2 := rfl

lemma cost_eq_sum_of_cond {Pix : Type} (c : DiffuseCorrelation Pix) (x1 x2 : Nat)
    (h1 : c.img1.valid (x1 : Int) (c.dif1.y : Int) = true)
    (h2 : c.img2.valid (x2 : Int) (c.dif2.y : Int) = true)
    (h3 : c.hasPair x1 x2) :
    c.Cost x1 x2 = (∑ p in offsetBall c.dif1.steps, c.pairTerm x1 x2 p.1 p.2) / 2 := by
  unfold DiffuseCorrelation.Cost
  rw [if_pos ⟨h1, h2, h3⟩]

lemma cost_eq_cap_of_invalid1 {Pix : Type} (c : DiffuseCorrelation Pix) (x1 x2 : Nat)
    (h : c.img1.valid (x1 : Int) (c.dif1.y : Int) = false) :
    c.Cost x1 x2 = c.distCap := by
  unfold DiffuseCorrelation.Cost
  rw [if_neg]
  intro hcon
  rw [h] at hcon
  simp at hcon

lemma cost_eq_cap_of_invalid2 {Pix : Type} (c : DiffuseCorrelation Pix) (x1 x2 : Nat)
    (h : c.img2.valid (x2 : Int) (c.dif2.y : Int) = false) :
    c.Cost x1 x2 = c.distCap := by
  unfold DiffuseCorrelation.Cost
  rw [if_neg]
  intro hcon
  rw [h] at hcon
  simp at hcon

lemma cost_eq_cap_of_no_pair {Pix : Type} (c : DiffuseCorrelation Pix) (x1 x2 : Nat)
    (h : ¬ c.hasPair x1 x2) :
    c.Cost x1 x2 = c.distCap := by
  unfold DiffuseCorrelation.Cost
  rw [if_neg]
  intro hcon
  exact h hcon.2.2

/-- C1 counterexample: on a fully masked pair the cost is the distance cap
while the weighted sum formula gives 0, so Cost does not equal the weighted
sum divided by two for every pair of coordinates. -/
theorem cost_formula_counterexample :
    ¬ (corrM.Cost 0 0 =
      (∑ p in offsetBall corrM.dif1.steps, corrM.pairTerm 0 0 p.1 p.2) / 2) := by
  with_unfolding_all decide

/-- C1 amended: whenever both pixels are valid and some offset receives
non-zero weight from both slices, Cost(x1,x2) equals the sum over window
offsets of (w1+w2) times the cap-clamped colour distance, divided by 2. -/
theorem cost_eq_weighted_sum_of_valid {Pix : Type} (c : DiffuseCorrelation Pix)
    (x1 x2 : Nat)
    (h1 : c.img1.valid (x1 : Int) (c.dif1.y : Int) = true)
    (h2 : c.img2.valid (x2 : Int) (c.dif2.y : Int) = true)
    (h3 : c.hasPair x1 x2) :
    c.Cost x1 x2 = (∑ p in offsetBall c.dif1.steps, c.pairTerm x1 x2 p.1 p.2) / 2 :=
  cost_eq_sum_of_cond c x1 x2 h1 h2 h3

/-- Witness for the amended C1 at a concrete valid pair. -/
theorem cost_eq_weighted_sum_of_valid_witness :
    corrW.Cost 0 0 = (∑ p in offsetBall corrW.dif1.steps, corrW.pairTerm 0 0 p.1 p.2) / 2 :=
  cost_eq_weighted_sum_of_valid corrW 0 0 (by decide) (by decide)
    (by with_unfolding_all decide)

/-- C4: Cost never exceeds the distance cap, and equals it exactly when a
pixel is masked or out of range or when no offset receives non-zero weight
from both slices. -/
theorem cost_never_exceeds_cap {Pix : Type} (c : DiffuseCorrelation Pix)
    (distC : Pix → Pix → ℚ) (cap : ℚ) (img1 img2 : LuvRangeImage Pix)
    (distW1 : Pix → Pix → ℚ) (distMult1 : ℚ) (negExp1 : ℚ → ℚ)
    (distW2 : Pix → Pix → ℚ) (distMult2 : ℚ) (negExp2 : ℚ → ℚ)
    (prev1 prev2 : RangeDiffusionSlice) (y1 y2 steps : Nat)
    (hc : c = DiffuseCorrelation.Setup distC cap img1
      (prev1.Create y1 steps img1 (DiffusionWeight.Create img1 distW1 distMult1 negExp1))
      img2
      (prev2.Create y2 steps img2 (DiffusionWeight.Create img2 distW2 distMult2 negExp2)))
    (hpos1 : ∀ q : ℚ, 0 ≤ q → 0 < negExp1 q)
    (hpos2 : ∀ q : ℚ, 0 ≤ q → 0 < negExp2 q)
    (hcap : 0 ≤ cap) (x1 x2 : Nat) :
    c.Cost x1 x2 ≤ c.DistanceCap ∧
    ((c.img1.valid (x1 : Int) (c.dif1.y : Int) = false ∨
      c.img2.valid (x2 : Int) (c.dif2.y : Int) = false ∨ ¬ c.hasPair x1 x2) →
      c.Cost x1 x2 = c.DistanceCap) := by
  subst hc
  unfold DiffuseCorrelation.DistanceCap
  constructor
  · apply cost_le_cap_general
    · exact hcap
    · exact slice_get_nonneg img1 distW1 distMult1 negExp1 hpos1 prev1 y1 steps x1
    · exact slice_get_nonneg img2 distW2 distMult2 negExp2 hpos2 prev2 y2 steps x2
    · have hs1 : (∑ p in offsetBall steps,
          (prev1.Create y1 steps img1
            (DiffusionWeight.Create img1 distW1 distMult1 negExp1)).Get x1 p.1 p.2) ≤ 1 := by
        rw [slice_sum_get img1 distW1 distMult1 negExp1 hpos1 prev1 y1 steps x1]
        split_ifs <;> norm_num
      exact hs1
    · have hs2 : (∑ p in offsetBall steps,
          (prev2.Create y2 steps img2
            (DiffusionWeight.Create img2 distW2 distMult2 negExp2)).Get x2 p.1 p.2) ≤ 1 := by
        rw [slice_sum_get img2 distW2 distMult2 negExp2 hpos2 prev2 y2 steps x2]
        split_ifs <;> norm_num
      exact hs2
  · intro hdisj
    rcases hdisj with h | h | h
    · exact cost_eq_cap_of_invalid1 _ x1 x2 h
    · exact cost_eq_cap_of_invalid2 _ x1 x2 h
    · exact cost_eq_cap_of_no_pair _ x1 x2 h

/-- Witness for C4 at a concrete pair. -/
theorem cost_never_exceeds_cap_witness : corrW.Cost 0 0 ≤ corrW.DistanceCap :=
  (cost_never_exceeds_cap corrW distW0 5 imgW imgW distW0 1 expW distW0 1 expW
    RangeDiffusionSlice.init RangeDiffusionSlice.init 0 0 1 rfl
    (fun _ _ => one_pos) (fun _ _ => one_pos) (by norm_num) 0 0).1

/-- C8: with the two images and the two slices identical and a distance
with zero self-distance, a pixel matches itself at least as well as it
matches any other pixel. -/
theorem cost_self_minimal {Pix : Type} (c : DiffuseCorrelation Pix)
    (img : LuvRangeImage Pix) (distC distW : Pix → Pix → ℚ) (distMult : ℚ)
    (negExp : ℚ → ℚ) (cap : ℚ) (prev : RangeDiffusionSlice) (y steps : Nat)
    (hc : c = DiffuseCorrelation.Setup distC cap img
      (prev.Create y steps img (DiffusionWeight.Create img distW distMult negExp))
      img (prev.Create y steps img (DiffusionWeight.Create img distW distMult negExp)))
    (hpos : ∀ q : ℚ, 0 ≤ q → 0 < negExp q)
    (hself : ∀ p : Pix, distC p p = 0) (hdnn : ∀ p q : Pix, 0 ≤ distC p q)
    (hcap : 0 ≤ cap) (x xp : Nat) (hne : x ≠ xp) :
    c.Cost x x ≤ c.Cost x xp := by
  subst hc
  have hnng : ∀ (xa : Nat) (u v : Int),
      0 ≤ (prev.Create y steps img
        (DiffusionWeight.Create img distW distMult negExp)).Get xa u v :=
    fun xa => slice_get_nonneg img distW distMult negExp hpos prev y steps xa
  by_cases hvx : img.valid (x : Int) (y : Int) = true
  · have hsum1 : (∑ p in offsetBall steps,
        (prev.Create y steps img
          (DiffusionWeight.Create img distW distMult negExp)).Get x p.1 p.2) = 1 := by
      rw [slice_sum_get img distW distMult negExp hpos prev y steps x, if_pos hvx]
    have hex : ∃ p ∈ offsetBall steps,
        (prev.Create y steps img
          (DiffusionWeight.Create img distW distMult negExp)).Get x p.1 p.2 ≠ 0 :=
      Finset.exists_ne_zero_of_sum_ne_zero (by rw [hsum1]; norm_num)
    have hpair : (DiffuseCorrelation.Setup distC cap img
        (prev.Create y steps img (DiffusionWeight.Create img distW distMult negExp))
        img (prev.Create y steps img
          (DiffusionWeight.Create img distW distMult negExp))).hasPair x x := by
      obtain ⟨p, hp, hpne⟩ := hex
      exact ⟨p, hp, hpne, hpne⟩
    have hcxx : (DiffuseCorrelation.Setup distC cap img
        (prev.Create y steps img (DiffusionWeight.Create img distW distMult negExp))
        img (prev.Create y steps img
          (DiffusionWeight.Create img distW distMult negExp))).Cost x x = 0 := by
      rw [cost_eq_sum_of_cond _ x x hvx hvx hpair]
      have hz : ∀ p ∈ offsetBall steps,
          (DiffuseCorrelation.Setup distC cap img
            (prev.Create y steps img (DiffusionWeight.Create img distW distMult negExp))
            img (prev.Create y steps img
              (DiffusionWeight.Create img distW distMult negExp))).pairTerm x x p.1 p.2 =
            0 := by
        intro p hp
        unfold DiffuseCorrelation.pairTerm
        simp only [setup_dist, setup_distCap, setup_img1, setup_dif1, setup_img2,
          setup_dif2, create_y]
        split_ifs with hw
        · rw [hself, min_eq_left hcap, mul_zero]
        · rfl
      rw [setup_dif1, create_steps, Finset.sum_eq_zero hz]
      norm_num
    rw [hcxx]
    exact cost_nonneg_general _ x xp hcap hdnn (hnng x) (hnng xp)
  · have hvf : img.valid (x : Int) (y : Int) = false := by
      rw [← Bool.not_eq_true]
      exact hvx
    rw [cost_eq_cap_of_invalid1 _ x x hvf, cost_eq_cap_of_invalid1 _ x xp hvf]

/-- Witness for C8 at a concrete pair of distinct coordinates. -/
theorem cost_self_minimal_witness : corrW.Cost 0 0 ≤ corrW.Cost 0 1 :=
  cost_self_minimal corrW imgW distW0 distW0 1 expW 5 RangeDiffusionSlice.init 0 1 rfl
    (fun _ _ => one_pos) (fun _ => rfl) (fun _ _ => le_refl 0) (by norm_num) 0 1
    (by omega)

/-- C9: in the matching output a masked pixel always has an empty disparity
candidate sequence, and a pixel is flagged reliable exactly when its final
candidate sequence has exactly one member. -/
theorem matching_reliable_iff_single {Pix : Type} (c : DiffuseCorrelation Pix)
    (dmin dmax : Int) (x : Nat) :
    (c.img1.valid (x : Int) (c.dif1.y : Int) = false →
      candidatesFor c dmin dmax x = []) ∧
    (reliableFlag c dmin dmax x = true ↔ (candidatesFor c dmin dmax x).length = 1) := by
  constructor
  · intro h
    unfold candidatesFor
    rw [if_neg (by rw [h]; simp)]
  · unfold reliableFlag
    exact beq_iff_eq

/-- Witness for C9 at a concrete masked pixel. -/
theorem matching_reliable_iff_single_witness : candidatesFor corrM 0 0 0 = [] :=
  (matching_reliable_iff_single corrM 0 0 0).1 (by decide)
